import Mathlib

/-!
Verification development for the information-retrieval module
(`info_retrieval.py`): term-frequency builders (raw, logarithmic,
augmented, boolean), inverse document frequency, the fused tf-idf
computation, L2 row normalization and cosine-derived similarity.

Modelling conventions:
* a document is its character list (`Word := List Char`); Python's
  `str.split()` is `tokens`, Python's `str.count` (non-overlapping
  substring count) is `countOcc`;
* a sparse CSR matrix is its row list; each row is the list of stored
  `(column, value)` pairs in construction order — absent pairs are the
  implicit zeros of the sparse format;
* `numpy` float arithmetic is modelled by exact arithmetic in a linear
  ordered field (ℚ or ℝ in the theorems), with `np.log` and `np.sqrt`
  passed as function parameters and instantiated with `Real.log` /
  `Real.sqrt` in the statements;
* Python's caught `ValueError`s (`dictionary.index` misses, `np.max` of
  an empty slice) are modelled by the `Option`-shaped branches of the
  corresponding definitions, which makes every operation total exactly
  as the `try`/`except` blocks do.
-/

namespace InfoRetrieval

/-- A word / document: its list of characters. -/
abbrev Word := List Char

/-- One stored row of a sparse matrix: `(column, value)` pairs. -/
abbrev SparseRow (α : Type) := List (Nat × α)

/-- A sparse matrix: its list of rows. -/
abbrev SparseMat (α : Type) := List (SparseRow α)

/-- Auxiliary for `countOcc`: scans the text one character at a time; a
positive `skip` means the scanner is still inside the previously matched
occurrence (matches never overlap, mirroring Python's `str.count`). -/
def countOccGo (pat : List Char) : List Char → Nat → Nat
  | [], _ => 0
  | c :: rest, skip =>
    match skip with
    | k + 1 => countOccGo pat rest k
    | 0 =>
      if pat.isPrefixOf (c :: rest) then 1 + countOccGo pat rest (pat.length - 1)
      else countOccGo pat rest 0

/-- Python's `line.count(word)`: number of non-overlapping occurrences of
`pat` as a substring of `s`, scanning left to right (the program only ever
counts nonempty words, so the empty pattern is irrelevant). -/
def countOcc (pat s : List Char) : Nat :=
  match pat with
  | [] => 0
  | _ :: _ => countOccGo pat s 0

/-- Auxiliary for `tokens`: `cur` holds the reversed characters of the
word currently being scanned. -/
def tokensGo : List Char → Word → List Word
  | [], cur => if cur.isEmpty then [] else [cur.reverse]
  | c :: rest, cur =>
    if c = ' ' then
      if cur.isEmpty then tokensGo rest [] else cur.reverse :: tokensGo rest []
    else tokensGo rest (c :: cur)

/-- Python's `line.split()` restricted to the space separator: the list of
maximal nonempty runs of non-space characters. -/
def tokens (s : List Char) : List Word :=
  tokensGo s []

/-- Python's `dictionary.index(word)` wrapped in its `try`/`except`:
index of the first occurrence of `w` in `V`, or `none` when absent. -/
def indexOfWord (V : List Word) (w : Word) : Option Nat :=
  match V with
  | [] => none
  | v :: rest => if v = w then some 0 else (indexOfWord rest w).map (· + 1)

/-- The shared row-building loop of `tf` and `boolean_tf`: walk the
document's tokens keeping the per-document `proceeded_word` set `seen`;
a token already processed or absent from the vocabulary contributes
nothing, otherwise the entry `(column, value w)` is appended. -/
def buildRowAux (V : List Word) (value : Word → Nat) : List Word → List Word → SparseRow Nat
  | _, [] => []
  | seen, w :: ws =>
    if w ∈ seen then buildRowAux V value seen ws
    else
      match indexOfWord V w with
      | none => buildRowAux V value seen ws
      | some j => (j, value w) :: buildRowAux V value (w :: seen) ws

/-- The row `tf` builds for one document: value = `line.count(word)`. -/
def tfRow (V : List Word) (d : Word) : SparseRow Nat :=
  buildRowAux V (fun w => countOcc w d) [] (tokens d)

/-- The row `boolean_tf` builds for one document: value = 1. -/
def boolRow (V : List Word) (d : Word) : SparseRow Nat :=
  buildRowAux V (fun _ => 1) [] (tokens d)

/-- `tf(data, dictionary)`: raw term-frequency sparse matrix. -/
def tf (D : List Word) (V : List Word) : SparseMat Nat :=
  D.map (tfRow V)

/-- `boolean_tf(data, dictionary)`: presence-indicator sparse matrix. -/
def boolean_tf (D : List Word) (V : List Word) : SparseMat Nat :=
  D.map (boolRow V)

/-- The stored value of row `r` at column `j` (first stored match), if any. -/
def lookupCol {α : Type} (r : SparseRow α) (j : Nat) : Option α :=
  (r.find? (fun p => p.1 == j)).map Prod.snd

/-- The matrix entry at `(i, j)`; positions the sparse format does not
store are its implicit zeros. -/
def entryV {α : Type} [Zero α] (M : SparseMat α) (i j : Nat) : α :=
  (lookupCol (M.getD i []) j).getD 0

section NumericModel

variable {α : Type} [LinearOrderedField α]

/-- The `mtype=float` conversion: cast an integer sparse matrix into the
numeric value type, keeping the stored positions. -/
def natMat (M : SparseMat Nat) : SparseMat α :=
  M.map (fun r => r.map (fun p => (p.1, (p.2 : α))))

/-- `log_tf(data, dictionary)`: raw tf, then `data = 1 + log(data)` on the
stored values only.  `np.log` is the parameter `ln`. -/
def log_tf (ln : α → α) (D V : List Word) : SparseMat α :=
  (natMat (tf D V) : SparseMat α).map (fun r => r.map (fun p => (p.1, 1 + ln p.2)))

/-- `np.max` over the stored values of one row slice
(`data[indptr[i]:indptr[i+1]]`); `none` models the `ValueError` on an
empty slice. -/
def rowMax? (r : SparseRow α) : Option α :=
  (r.map Prod.snd).max?

/-- The guarded in-place row division of `augmented_tf`: divide the stored
row values by their maximum; on an empty row the `ValueError` is caught
and the division is skipped. -/
def augRowDiv (r : SparseRow α) : SparseRow α :=
  match rowMax? r with
  | none => r
  | some m => r.map (fun p => (p.1, p.2 / m))

/-- `augmented_tf(data, dictionary, alpha)`: raw tf as floats, then
`data *= 1 - alpha`, then each row slice is divided by its `np.max`
(skipped when empty), then `data += alpha`. -/
def augmented_tf (D V : List Word) (alpha : α) : SparseMat α :=
  (((natMat (tf D V) : SparseMat α).map
      (fun r => r.map (fun p => (p.1, p.2 * (1 - alpha))))).map augRowDiv).map
    (fun r => r.map (fun p => (p.1, p.2 + alpha)))

/-- `np.count_nonzero` over the stored entries of column `j` (the CSC
column slice `data[indptr[j]:indptr[j+1]]` collects exactly the stored
entries of column `j`). -/
def colNonzeroCount (M : SparseMat α) (j : Nat) : Nat :=
  (M.map (fun r => r.countP (fun p => p.1 == j && decide (p.2 ≠ 0)))).sum

/-- `idf(data, dictionary)`: boolean tf as floats, then every stored value
of column `j` is overwritten with `log(N / (1 + count_nonzero(column j)))`
(the CSR/CSC format conversions keep the stored positions). -/
def idf (ln : α → α) (D V : List Word) : SparseMat α :=
  let B : SparseMat α := natMat (boolean_tf D V)
  let N : α := (D.length : α)
  B.map (fun r => r.map (fun p => (p.1, ln (N / (1 + (colNonzeroCount B p.1 : α))))))

/-- The four term-frequency weighting schemes `tf_idf` dispatches on
(its `func` argument). -/
inductive TfKind
  | rawK
  | logK
  | augK
  | boolK

/-- The scheme dispatch of `tf_idf`: `func(data, dictionary, alpha=alpha)`
for the augmented scheme, `func(data, dictionary, mtype=float)` otherwise. -/
def schemeMat (ln : α → α) : TfKind → List Word → List Word → α → SparseMat α
  | .rawK, D, V, _ => natMat (tf D V)
  | .logK, D, V, _ => log_tf ln D V
  | .augK, D, V, a => augmented_tf D V a
  | .boolK, D, V, _ => natMat (boolean_tf D V)

/-- `scipy`'s elementwise `multiply` on one row pair: stored entries at
the intersection of the stored positions, values multiplied. -/
def mulRow (r1 r2 : SparseRow α) : SparseRow α :=
  r1.filterMap (fun p => (lookupCol r2 p.1).map (fun v => (p.1, p.2 * v)))

/-- `scipy`'s elementwise `multiply` of two equal-shaped sparse matrices. -/
def matElemMul (M1 M2 : SparseMat α) : SparseMat α :=
  List.zipWith mulRow M1 M2

/-- `tf_idf(data, dictionary, func, alpha)`: the chosen tf matrix, then an
idf-like matrix built on the tf matrix's own stored structure — every
stored value of column `j` becomes `log(N / (1 + count_nonzero(column j of
the tf matrix)))` — and finally `tf_var.multiply(...)`. -/
def tf_idf (ln : α → α) (D V : List Word) (k : TfKind) (alpha : α) : SparseMat α :=
  let tfv := schemeMat ln k D V alpha
  let N : α := (D.length : α)
  let idfm := tfv.map
    (fun r => r.map (fun p => (p.1, ln (N / (1 + (colNonzeroCount tfv p.1 : α))))))
  matElemMul tfv idfm

/-- The naive computation claim C1 compares `tf_idf` against (from the
specification's words): build the chosen term-frequency matrix and the
`idf` matrix independently, then take their elementwise product restricted
to the intersection of their stored ("nonzero") positions. -/
def naive_tf_idf (ln : α → α) (D V : List Word) (k : TfKind) (alpha : α) : SparseMat α :=
  matElemMul (schemeMat ln k D V alpha) (idf ln D V)

/-- `np.linalg.norm(data, 2)` of one row slice: the square root of the sum
of the squared stored values.  `np.sqrt` is the parameter `sqrt`. -/
def rowNorm (sqrt : α → α) (r : SparseRow α) : α :=
  sqrt ((r.map (fun p => p.2 ^ 2)).sum)

/-- `unit_length_scaling(matrix)`: every row slice is divided in place by
its own Euclidean norm. -/
def unit_length_scaling (sqrt : α → α) (M : SparseMat α) : SparseMat α :=
  M.map (fun r => r.map (fun p => (p.1, p.2 / rowNorm sqrt r)))

/-- Whether the sparse product `matrix2 @ matrix1.T` stores the entry of a
row pair: some column is stored in both rows (sparse matrix
multiplication materializes exactly the structural-overlap positions). -/
def sharedCols (r2 r1 : SparseRow α) : Bool :=
  r2.any (fun p => (lookupCol r1 p.1).isSome)

/-- The dot product of two sparse rows (the value the sparse `@` computes
at an overlap position). -/
def sparseDot (r2 r1 : SparseRow α) : α :=
  (r2.map (fun p => p.2 * ((lookupCol r1 p.1).getD 0))).sum

/-- `sim(matrix1, matrix2)` as the dense array `result.toarray()`:
normalize both inputs, `result = matrix2 @ matrix1.T`, then
`result.data = result.data + 1.0` — the `+ 1.0` reaches only the stored
entries of the sparse product, so a structurally absent entry densifies
to `0`.  (The Python bare-scalar return for a 1x1 result is the single
entry of this array.) -/
def sim (sqrt : α → α) (M1 M2 : SparseMat α) : List (List α) :=
  let m1 := unit_length_scaling sqrt M1
  let m2 := unit_length_scaling sqrt M2
  m2.map (fun r2 => m1.map (fun r1 => if sharedCols r2 r1 then sparseDot r2 r1 + 1 else 0))

/-- A row that is not all-zero: some stored value is nonzero. -/
def hasNonzeroEntry (r : SparseRow α) : Prop :=
  ∃ p ∈ r, p.2 ≠ 0

end NumericModel

/-- `df(term j)` as the specification defines it: the number of documents
containing vocabulary word `j` at least once (as a token). -/
def dfDocs (D V : List Word) (j : Nat) : Nat :=
  D.countP (fun d => decide (V.getD j [] ∈ tokens d))

/-- Every stored entry of `M` lies at a position whose vocabulary word
occurs as a token of the corresponding document: out-of-vocabulary words
contribute no matrix entry. -/
def okPositions {β : Type} (D V : List Word) (M : SparseMat β) : Prop :=
  ∀ i : Nat, ∀ p ∈ M.getD i [], p.1 < V.length ∧ V.getD p.1 [] ∈ tokens (D.getD i [])

/-- A document containing zero vocabulary words yields an entirely empty
(all-zero) row. -/
def emptyRowOnNoVocab {β : Type} (D V : List Word) (M : SparseMat β) : Prop :=
  ∀ i : Nat, (∀ w ∈ tokens (D.getD i []), w ∉ V) → M.getD i [] = []

/-! ### Lemmas about `indexOfWord` -/

theorem indexOfWord_eq_none {V : List Word} {w : Word} :
    indexOfWord V w = none ↔ w ∉ V := by
  induction V with
  | nil => simp [indexOfWord]
  | cons v rest ih =>
    by_cases h : v = w
    · simp [indexOfWord, h]
    · simp only [indexOfWord, if_neg h, Option.map_eq_none', List.mem_cons, ih]
      constructor
      · intro hn hc
        rcases hc with hc | hc
        · exact h hc.symm
        · exact hn hc
      · intro hn
        exact fun hc => hn (Or.inr hc)

theorem getD_mem_of_lt {l : List Word} {j : Nat} (h : j < l.length) :
    l.getD j [] ∈ l := by
  induction l generalizing j with
  | nil => simp at h
  | cons x xs ih =>
    rcases j with _ | j'
    · simp
    · simp only [List.getD_cons_succ]
      exact List.mem_cons_of_mem _ (ih (by simpa using h))

theorem indexOfWord_some_lt {V : List Word} {w : Word} {j : Nat}
    (h : indexOfWord V w = some j) : j < V.length := by
  induction V generalizing j with
  | nil => simp [indexOfWord] at h
  | cons v rest ih =>
    by_cases hv : v = w
    · simp only [indexOfWord, if_pos hv] at h
      injection h with h
      subst h
      simp
    · simp only [indexOfWord, if_neg hv, Option.map_eq_some'] at h
      obtain ⟨j', hj', rfl⟩ := h
      have := ih hj'
      simp only [List.length_cons]
      omega

theorem indexOfWord_some_getD {V : List Word} {w : Word} {j : Nat}
    (h : indexOfWord V w = some j) : V.getD j [] = w := by
  induction V generalizing j with
  | nil => simp [indexOfWord] at h
  | cons v rest ih =>
    by_cases hv : v = w
    · simp only [indexOfWord, if_pos hv] at h
      injection h with h
      subst h
      simp [hv]
    · simp only [indexOfWord, if_neg hv, Option.map_eq_some'] at h
      obtain ⟨j', hj', rfl⟩ := h
      simpa using ih hj'

theorem indexOfWord_of_nodup {V : List Word} {w : Word} {j : Nat}
    (hV : V.Nodup) (hj : j < V.length) (hw : V.getD j [] = w) :
    indexOfWord V w = some j := by
  induction V generalizing j with
  | nil => simp at hj
  | cons v rest ih =>
    rcases j with _ | j'
    · simp only [List.getD_cons_zero] at hw
      simp [indexOfWord, hw]
    · simp only [List.getD_cons_succ] at hw
      have hne : v ≠ w := by
        intro hc
        apply (List.nodup_cons.mp hV).1
        rw [hc, ← hw]
        exact getD_mem_of_lt (by simpa using hj)
      simp only [indexOfWord, if_neg hne]
      rw [ih (List.nodup_cons.mp hV).2 (by simpa using hj) hw]
      rfl

/-! ### Lemmas about `tokens` and `countOcc` -/

theorem tokensGo_ne_nil {l : List Char} {cur : Word} {t : Word}
    (h : t ∈ tokensGo l cur) : t ≠ [] := by
  induction l generalizing cur with
  | nil =>
    simp only [tokensGo] at h
    split at h
    · simp at h
    · next hne =>
      simp only [List.mem_singleton] at h
      subst h
      simpa [List.isEmpty_iff] using hne
  | cons c rest ih =>
    simp only [tokensGo] at h
    split at h
    · split at h
      · exact ih h
      · next hne =>
        rcases List.mem_cons.mp h with rfl | hmem
        · simpa [List.isEmpty_iff] using hne
        · exact ih hmem
    · exact ih h

theorem tokensGo_mem_append {l : List Char} {cur : Word} {t : Word}
    (h : t ∈ tokensGo l cur) :
    ∃ pre post, cur.reverse ++ l = pre ++ t ++ post := by
  induction l generalizing cur with
  | nil =>
    simp only [tokensGo] at h
    split at h
    · simp at h
    · simp only [List.mem_singleton] at h
      subst h
      exact ⟨[], [], by simp⟩
  | cons c rest ih =>
    simp only [tokensGo] at h
    split at h
    · next hc =>
      subst hc
      split at h
      · next hemp =>
        rw [List.isEmpty_iff] at hemp
        subst hemp
        obtain ⟨pre, post, hp⟩ := ih h
        simp only [List.reverse_nil, List.nil_append] at hp
        exact ⟨' ' :: pre, post, by simp [hp]⟩
      · rcases List.mem_cons.mp h with rfl | hmem
        · exact ⟨[], ' ' :: rest, by simp⟩
        · obtain ⟨pre, post, hp⟩ := ih hmem
          refine ⟨cur.reverse ++ ' ' :: pre, post, ?_⟩
          simp only [List.reverse_nil, List.nil_append] at hp
          simp [hp]
    · obtain ⟨pre, post, hp⟩ := ih h
      refine ⟨pre, post, ?_⟩
      simp only [List.reverse_cons, List.append_assoc, List.singleton_append] at hp
      simpa [List.append_assoc] using hp

theorem mem_tokens_sub {s : List Char} {t : Word} (h : t ∈ tokens s) :
    ∃ pre post, s = pre ++ t ++ post := by
  have := @tokensGo_mem_append s [] t (by simpa [tokens] using h)
  simpa using this

theorem countOccGo_pos {p0 : Char} {prest : List Char} (pre : List Char)
    (post : List Char) :
    1 ≤ countOccGo (p0 :: prest) (pre ++ (p0 :: prest) ++ post) 0 := by
  induction pre with
  | nil =>
    simp only [List.nil_append, List.cons_append, countOccGo]
    split
    · omega
    · next hfail =>
      exfalso
      apply hfail
      rw [List.isPrefixOf_iff_prefix]
      exact ⟨post, by simp⟩
  | cons c rest ih =>
    simp only [List.cons_append, List.append_assoc] at ih ⊢
    simp only [countOccGo]
    split
    · omega
    · exact ih

theorem countOcc_pos_of_mem_tokens {s : List Char} {w : Word}
    (h : w ∈ tokens s) : 1 ≤ countOcc w s := by
  obtain ⟨pre, post, rfl⟩ := mem_tokens_sub h
  rcases w with _ | ⟨p0, prest⟩
  · exact absurd rfl (tokensGo_ne_nil (by simpa [tokens] using h))
  · simpa [countOcc] using countOccGo_pos pre post

/-! ### Lemmas about the row-building loop -/

theorem nodup_getD_inj {V : List Word} {i j : Nat} (hV : V.Nodup)
    (hi : i < V.length) (hj : j < V.length) (h : V.getD i [] = V.getD j []) :
    i = j := by
  rw [List.getD_eq_getElem V [] hi, List.getD_eq_getElem V [] hj] at h
  have := (@List.Nodup.get_inj_iff _ V hV ⟨i, hi⟩ ⟨j, hj⟩).mp (by simpa using h)
  simpa using congrArg Fin.val this

theorem lookupCol_cons {α : Type} (q : Nat × α) (r : SparseRow α) (j : Nat) :
    lookupCol (q :: r) j = if q.1 = j then some q.2 else lookupCol r j := by
  by_cases h : q.1 = j <;> simp [lookupCol, List.find?_cons, h]

theorem buildRowAux_mem {V : List Word} {value : Word → Nat} {seen ws : List Word}
    {j v : Nat} (h : (j, v) ∈ buildRowAux V value seen ws) :
    ∃ w, w ∈ ws ∧ w ∉ seen ∧ indexOfWord V w = some j ∧ v = value w := by
  induction ws generalizing seen with
  | nil => simp [buildRowAux] at h
  | cons w ws ih =>
    simp only [buildRowAux] at h
    split at h
    · obtain ⟨w', h1, h2, h3, h4⟩ := ih h
      exact ⟨w', List.mem_cons_of_mem _ h1, h2, h3, h4⟩
    · next hseen =>
      cases hidx : indexOfWord V w with
      | none =>
        rw [hidx] at h
        obtain ⟨w', h1, h2, h3, h4⟩ := ih h
        exact ⟨w', List.mem_cons_of_mem _ h1, h2, h3, h4⟩
      | some j' =>
        rw [hidx] at h
        rcases List.mem_cons.mp h with heq | hmem
        · have hj : j = j' := congrArg Prod.fst heq
          have hv : v = value w := congrArg Prod.snd heq
          exact ⟨w, List.mem_cons_self _ _, hseen, by rw [hidx, hj], hv⟩
        · obtain ⟨w', h1, h2, h3, h4⟩ := ih hmem
          exact ⟨w', List.mem_cons_of_mem _ h1,
            fun hc => h2 (List.mem_cons_of_mem _ hc), h3, h4⟩

theorem buildRowAux_cols_value_indep {V : List Word} (f g : Word → Nat)
    (ws seen : List Word) :
    (buildRowAux V f seen ws).map Prod.fst
      = (buildRowAux V g seen ws).map Prod.fst := by
  induction ws generalizing seen with
  | nil => simp [buildRowAux]
  | cons w ws ih =>
    simp only [buildRowAux]
    split
    · exact ih seen
    · cases hidx : indexOfWord V w with
      | none => simp only [hidx]; exact ih seen
      | some j' =>
        simp only [hidx, List.map_cons]
        rw [ih (w :: seen)]

theorem buildRowAux_eq_nil {V : List Word} {value : Word → Nat}
    {seen ws : List Word} (h : ∀ w ∈ ws, w ∉ V) :
    buildRowAux V value seen ws = [] := by
  induction ws generalizing seen with
  | nil => rfl
  | cons w ws ih =>
    have hidx : indexOfWord V w = none :=
      indexOfWord_eq_none.mpr (h w (List.mem_cons_self _ _))
    simp only [buildRowAux, hidx]
    split
    · exact ih (fun x hx => h x (List.mem_cons_of_mem _ hx))
    · exact ih (fun x hx => h x (List.mem_cons_of_mem _ hx))

theorem buildRowAux_lookup {V : List Word} {value : Word → Nat}
    {ws seen : List Word} {j : Nat} (hV : V.Nodup) (hj : j < V.length)
    (hseen : V.getD j [] ∉ seen) :
    lookupCol (buildRowAux V value seen ws) j
      = if V.getD j [] ∈ ws then some (value (V.getD j [])) else none := by
  induction ws generalizing seen with
  | nil => simp [buildRowAux, lookupCol]
  | cons w ws ih =>
    simp only [buildRowAux]
    by_cases hw : w ∈ seen
    · rw [if_pos hw]
      have hne : V.getD j [] ≠ w := fun hc => hseen (hc ▸ hw)
      rw [ih hseen]
      by_cases hmem : V.getD j [] ∈ ws
      · rw [if_pos hmem, if_pos (List.mem_cons_of_mem _ hmem)]
      · have hnm : V.getD j [] ∉ w :: ws := by
          simp only [List.mem_cons, not_or]
          exact ⟨hne, hmem⟩
        rw [if_neg hmem, if_neg hnm]
    · rw [if_neg hw]
      cases hidx : indexOfWord V w with
      | none =>
        have hwV : w ∉ V := indexOfWord_eq_none.mp hidx
        have hne : V.getD j [] ≠ w := by
          intro hc
          exact hwV (hc ▸ getD_mem_of_lt hj)
        rw [ih hseen]
        by_cases hmem : V.getD j [] ∈ ws
        · rw [if_pos hmem, if_pos (List.mem_cons_of_mem _ hmem)]
        · have hnm : V.getD j [] ∉ w :: ws := by
            simp only [List.mem_cons, not_or]
            exact ⟨hne, hmem⟩
          rw [if_neg hmem, if_neg hnm]
      | some j' =>
        by_cases heq : V.getD j [] = w
        · have hjj : j' = j := by
            have h1 : V.getD j' [] = w := indexOfWord_some_getD hidx
            have h2 : j' < V.length := indexOfWord_some_lt hidx
            exact nodup_getD_inj hV h2 hj (h1.trans heq.symm)
          subst hjj
          rw [lookupCol_cons, if_pos rfl,
            if_pos (by rw [heq]; exact List.mem_cons_self _ _), heq]
        · have hne : j' ≠ j := by
            intro hc
            apply heq
            rw [← hc]
            exact indexOfWord_some_getD hidx
          have hseen' : V.getD j [] ∉ w :: seen := by
            simp only [List.mem_cons, not_or]
            exact ⟨heq, hseen⟩
          rw [lookupCol_cons, if_neg hne, ih hseen']
          by_cases hmem : V.getD j [] ∈ ws
          · rw [if_pos hmem, if_pos (List.mem_cons_of_mem _ hmem)]
          · have hnm : V.getD j [] ∉ w :: ws := by
              simp only [List.mem_cons, not_or]
              exact ⟨heq, hmem⟩
            rw [if_neg hmem, if_neg hnm]

theorem buildRowAux_cols_nodup {V : List Word} {value : Word → Nat}
    {seen ws : List Word} :
    ((buildRowAux V value seen ws).map Prod.fst).Nodup := by
  induction ws generalizing seen with
  | nil => simp [buildRowAux]
  | cons w ws ih =>
    simp only [buildRowAux]
    split
    · exact ih
    · cases hidx : indexOfWord V w with
      | none => simp only [hidx]; exact ih
      | some j' =>
        simp only [hidx, List.map_cons, List.nodup_cons]
        refine ⟨?_, ih⟩
        intro hmem
        obtain ⟨⟨j2, v2⟩, hmem2, hfst⟩ := List.mem_map.mp hmem
        obtain ⟨w2, _, hw2seen, hw2idx, _⟩ := buildRowAux_mem hmem2
        have hw2 : w2 ≠ w := fun hc => hw2seen (hc ▸ List.mem_cons_self _ _)
        apply hw2
        have e1 : V.getD j2 [] = w2 := indexOfWord_some_getD hw2idx
        have e2 : V.getD j' [] = w := indexOfWord_some_getD hidx
        rw [← e1, ← e2]
        simp only at hfst
        rw [hfst]

/-! ### Row- and matrix-level consequences -/

theorem map_getD_nil {A B : Type} (f : List A → List B) (M : List (List A))
    (i : Nat) :
    (M.map f).getD i [] = if i < M.length then f (M.getD i []) else [] := by
  split
  · next h =>
    rw [List.getD_eq_getElem _ _ (by simpa using h), List.getElem_map,
      List.getD_eq_getElem _ _ h]
  · next h =>
    exact List.getD_eq_default _ _ (by simpa using Nat.le_of_not_lt h)

theorem zipWith_getD_nil {A B C : Type} (f : List A → List B → List C)
    (M1 : List (List A)) (M2 : List (List B)) (i : Nat) :
    (List.zipWith f M1 M2).getD i []
      = if i < M1.length ∧ i < M2.length then f (M1.getD i []) (M2.getD i [])
        else [] := by
  induction M1 generalizing M2 i with
  | nil => simp
  | cons r1 M1' ih =>
    cases M2 with
    | nil => simp
    | cons r2 M2' =>
      cases i with
      | zero => simp
      | succ i' =>
        simp only [List.zipWith_cons_cons, List.getD_cons_succ, ih M2' i',
          List.length_cons]
        by_cases h : i' < M1'.length ∧ i' < M2'.length
        · rw [if_pos h, if_pos (by omega)]
        · rw [if_neg h, if_neg (by omega)]

theorem tokens_nil : tokens ([] : List Char) = [] := rfl

theorem tfRow_mem_facts {V : List Word} {d : Word} {p : Nat × Nat}
    (hp : p ∈ tfRow V d) :
    p.1 < V.length ∧ V.getD p.1 [] ∈ tokens d ∧ 1 ≤ p.2 := by
  obtain ⟨j, v⟩ := p
  obtain ⟨w, hw, _, hidx, hv⟩ := buildRowAux_mem hp
  have h1 : j < V.length := indexOfWord_some_lt hidx
  have h2 : V.getD j [] = w := indexOfWord_some_getD hidx
  refine ⟨h1, by rw [h2]; exact hw, ?_⟩
  rw [hv]
  exact countOcc_pos_of_mem_tokens hw

theorem boolRow_mem_facts {V : List Word} {d : Word} {p : Nat × Nat}
    (hp : p ∈ boolRow V d) :
    p.1 < V.length ∧ V.getD p.1 [] ∈ tokens d ∧ p.2 = 1 := by
  obtain ⟨j, v⟩ := p
  obtain ⟨w, hw, _, hidx, hv⟩ := buildRowAux_mem hp
  have h1 : j < V.length := indexOfWord_some_lt hidx
  have h2 : V.getD j [] = w := indexOfWord_some_getD hidx
  exact ⟨h1, by rw [h2]; exact hw, hv⟩

theorem tfRow_lookup {V : List Word} {d : Word} {j : Nat} (hV : V.Nodup)
    (hj : j < V.length) :
    lookupCol (tfRow V d) j
      = if V.getD j [] ∈ tokens d then some (countOcc (V.getD j []) d)
        else none :=
  buildRowAux_lookup hV hj (List.not_mem_nil _)

theorem boolRow_lookup {V : List Word} {d : Word} {j : Nat} (hV : V.Nodup)
    (hj : j < V.length) :
    lookupCol (boolRow V d) j
      = if V.getD j [] ∈ tokens d then some 1 else none :=
  buildRowAux_lookup hV hj (List.not_mem_nil _)

theorem tfRow_cols_eq_boolRow_cols (V : List Word) (d : Word) :
    (tfRow V d).map Prod.fst = (boolRow V d).map Prod.fst :=
  buildRowAux_cols_value_indep _ _ _ _

theorem tf_row_getD (D V : List Word) (i : Nat) :
    (tf D V).getD i [] = if i < D.length then tfRow V (D.getD i []) else [] :=
  map_getD_nil _ _ _

theorem tf_lookup {D V : List Word} {j : Nat} (hV : V.Nodup)
    (hj : j < V.length) (i : Nat) :
    lookupCol ((tf D V).getD i []) j
      = if V.getD j [] ∈ tokens (D.getD i [])
        then some (countOcc (V.getD j []) (D.getD i [])) else none := by
  rw [tf_row_getD]
  split
  · exact tfRow_lookup hV hj
  · next h =>
    have hd : D.getD i [] = [] :=
      List.getD_eq_default _ _ (by simpa using Nat.le_of_not_lt h)
    rw [hd]
    simp [lookupCol, tokens_nil]

/-! ### Claim C3 -/

/-- C3 counterexample: the universal claim "the `tf` entry at `(i, j)`
equals the literal occurrence count of vocabulary word `j` inside document
`i`'s token string" fails at a concrete input under either reading of
"occurrence count".  With documents `["cat catalog"]` and vocabulary
`["cat"]` the stored entry is 2 (Python's substring `count`) although
"cat" occurs only once as a token; with documents `["catalog"]` and
vocabulary `["cat"]` the entry is 0 (no token matches, so no entry is
created) although "cat" occurs once as a substring. -/
theorem tf_entry_count_cex :
    (entryV (tf ["cat catalog".toList] ["cat".toList]) 0 0 = 2
      ∧ (tokens "cat catalog".toList).count "cat".toList = 1)
    ∧ (entryV (tf ["catalog".toList] ["cat".toList]) 0 0 = 0
      ∧ countOcc "cat".toList "catalog".toList = 1) := by
  decide

/-- C3 (amended): for a duplicate-free vocabulary, the `tf` entry at
`(i, j)` equals the non-overlapping substring count of vocabulary word `j`
inside document `i` whenever word `j` occurs as a whitespace token of
document `i`, and is 0 (no stored entry) otherwise; the concrete scenario
of the claim holds as stated. -/
theorem tf_entry_substring_count (D V : List Word) (i j : Nat)
    (hV : V.Nodup) (hj : j < V.length) :
    (entryV (tf D V) i j
      = if V.getD j [] ∈ tokens (D.getD i [])
        then countOcc (V.getD j []) (D.getD i []) else 0)
    ∧ tf ["cat dog".toList, "dog dog fish".toList]
        ["cat".toList, "dog".toList, "fish".toList]
      = [[(0, 1), (1, 1)], [(1, 2), (2, 1)]] := by
  constructor
  · rw [entryV, tf_lookup hV hj i]
    split
    · rfl
    · rfl
  · decide

/-- Witness for C3 (amended) at the concrete scenario input, entry
`(1, 1)`. -/
theorem tf_entry_substring_count_witness :
    (["cat".toList, "dog".toList, "fish".toList] : List Word).Nodup
    ∧ 1 < (["cat".toList, "dog".toList, "fish".toList] : List Word).length
    ∧ (entryV (tf ["cat dog".toList, "dog dog fish".toList]
          ["cat".toList, "dog".toList, "fish".toList]) 1 1
        = if (["cat".toList, "dog".toList, "fish".toList] : List Word).getD 1 []
              ∈ tokens ((["cat dog".toList, "dog dog fish".toList] : List Word).getD 1 [])
          then countOcc ((["cat".toList, "dog".toList, "fish".toList] : List Word).getD 1 [])
            ((["cat dog".toList, "dog dog fish".toList] : List Word).getD 1 [])
          else 0) :=
  ⟨by decide, by decide,
    (tf_entry_substring_count ["cat dog".toList, "dog dog fish".toList]
      ["cat".toList, "dog".toList, "fish".toList] 1 1 (by decide) (by decide)).1⟩

/-! ### Claim C10 -/

/-- C10: every stored entry of the raw `tf` matrix is an integer ≥ 1 (an
entry is created only for a word that occurs as a token of the document,
so its substring count is positive); consequently `log_tf` only ever
evaluates the logarithm at arguments ≥ 1 — never at 0 — and every stored
entry of `log_tf` is ≥ 1. -/
theorem tf_entries_pos_log_tf_ge_one (D V : List Word) :
    (∀ r ∈ tf D V, ∀ p ∈ r, 1 ≤ p.2)
    ∧ (∀ r ∈ log_tf Real.log D V, ∀ p ∈ r, (1:ℝ) ≤ p.2) := by
  have htf : ∀ r ∈ tf D V, ∀ p ∈ r, 1 ≤ p.2 := by
    intro r hr p hp
    obtain ⟨d, _, rfl⟩ := List.mem_map.mp hr
    exact (tfRow_mem_facts hp).2.2
  refine ⟨htf, ?_⟩
  intro r hr p hp
  simp only [log_tf, natMat, List.map_map] at hr
  obtain ⟨r0, hr0, rfl⟩ := List.mem_map.mp hr
  simp only [Function.comp_apply, List.map_map] at hp
  obtain ⟨q, hq, rfl⟩ := List.mem_map.mp hp
  have h1 : (1:ℝ) ≤ (q.2 : ℝ) := by exact_mod_cast htf r0 hr0 q hq
  have h2 : (0:ℝ) ≤ Real.log (q.2 : ℝ) := Real.log_nonneg h1
  simp only [Function.comp_apply]
  linarith

/-- Witness for C10 at documents `["a a"]`, vocabulary `["a"]`. -/
theorem tf_entries_pos_log_tf_ge_one_witness :
    1 ≤ (2:ℕ) ∧ (1:ℝ) ≤ 1 + Real.log ((2:ℕ):ℝ) := by
  have h := tf_entries_pos_log_tf_ge_one ["a a".toList] ["a".toList]
  have htf : tf ["a a".toList] ["a".toList] = [[(0, 2)]] := by decide
  constructor
  · exact h.1 [(0, 2)] (by rw [htf]; exact List.mem_singleton.mpr rfl) (0, 2)
      (List.mem_singleton.mpr rfl)
  · have hlog : log_tf Real.log ["a a".toList] ["a".toList]
        = [[(0, 1 + Real.log ((2:ℕ):ℝ))]] := by
      rw [log_tf, natMat, htf]
      simp
    exact h.2 [(0, 1 + Real.log ((2:ℕ):ℝ))]
      (by rw [hlog]; exact List.mem_singleton.mpr rfl)
      (0, 1 + Real.log ((2:ℕ):ℝ)) (List.mem_singleton.mpr rfl)

/-! ### Claim C8: positions of every builder -/

theorem okPositions_of_sub {α β : Type} {D V : List Word} {M' : SparseMat α}
    {M : SparseMat β}
    (hsub : ∀ i : Nat, ∀ p ∈ M'.getD i [], ∃ q ∈ M.getD i [], q.1 = p.1)
    (hM : okPositions D V M) : okPositions D V M' := by
  intro i p hp
  obtain ⟨q, hq, hq1⟩ := hsub i p hp
  have h := hM i q hq
  rwa [hq1] at h

theorem emptyRow_of_sub {α β : Type} {D V : List Word} {M' : SparseMat α}
    {M : SparseMat β}
    (hsub : ∀ i : Nat, ∀ p ∈ M'.getD i [], ∃ q ∈ M.getD i [], q.1 = p.1)
    (hM : emptyRowOnNoVocab D V M) : emptyRowOnNoVocab D V M' := by
  intro i hno
  have hnil := hM i hno
  rw [List.eq_nil_iff_forall_not_mem]
  intro p hp
  obtain ⟨q, hq, _⟩ := hsub i p hp
  rw [hnil] at hq
  exact List.not_mem_nil q hq

theorem sub_trans {α β γ : Type} {M'' : SparseMat α} {M' : SparseMat β}
    {M : SparseMat γ}
    (h1 : ∀ i : Nat, ∀ p ∈ M''.getD i [], ∃ q ∈ M'.getD i [], q.1 = p.1)
    (h2 : ∀ i : Nat, ∀ p ∈ M'.getD i [], ∃ q ∈ M.getD i [], q.1 = p.1) :
    ∀ i : Nat, ∀ p ∈ M''.getD i [], ∃ q ∈ M.getD i [], q.1 = p.1 := by
  intro i p hp
  obtain ⟨q, hq, hq1⟩ := h1 i p hp
  obtain ⟨q', hq', hq1'⟩ := h2 i q hq
  exact ⟨q', hq', hq1'.trans hq1⟩

theorem sub_of_map {α β : Type} (f : SparseRow β → SparseRow α)
    (hf : ∀ r : SparseRow β, ∀ p ∈ f r, ∃ q ∈ r, q.1 = p.1)
    (M : SparseMat β) :
    ∀ i : Nat, ∀ p ∈ (M.map f).getD i [], ∃ q ∈ M.getD i [], q.1 = p.1 := by
  intro i p hp
  rw [map_getD_nil] at hp
  split at hp
  · exact hf _ p hp
  · exact absurd hp (List.not_mem_nil p)

theorem map_row_sub {α β : Type} (g : Nat × β → α) (r : SparseRow β) :
    ∀ p ∈ r.map (fun q => (q.1, g q)), ∃ q ∈ r, q.1 = p.1 := by
  intro p hp
  obtain ⟨q, hq, rfl⟩ := List.mem_map.mp hp
  exact ⟨q, hq, rfl⟩

theorem mapRows_sub {α β : Type} (g : Nat × β → α) (M : SparseMat β) :
    ∀ i : Nat, ∀ p ∈ (M.map (fun r => r.map (fun q => (q.1, g q)))).getD i [],
      ∃ q ∈ M.getD i [], q.1 = p.1 :=
  sub_of_map _ (fun r => map_row_sub g r) M

theorem augRowDiv_sub {α : Type} [LinearOrderedField α] (r : SparseRow α) :
    ∀ p ∈ augRowDiv r, ∃ q ∈ r, q.1 = p.1 := by
  intro p hp
  rw [augRowDiv] at hp
  split at hp
  · exact ⟨p, hp, rfl⟩
  · obtain ⟨q, hq, rfl⟩ := List.mem_map.mp hp
    exact ⟨q, hq, rfl⟩

theorem mulRow_sub {α : Type} [LinearOrderedField α] (r1 r2 : SparseRow α) :
    ∀ p ∈ mulRow r1 r2, ∃ q ∈ r1, q.1 = p.1 := by
  intro p hp
  simp only [mulRow, List.mem_filterMap] at hp
  obtain ⟨q, hq, hmap⟩ := hp
  rcases Option.map_eq_some'.mp hmap with ⟨v, _, rfl⟩
  exact ⟨q, hq, rfl⟩

theorem matElemMul_sub {α : Type} [LinearOrderedField α] (M1 M2 : SparseMat α) :
    ∀ i : Nat, ∀ p ∈ (matElemMul M1 M2).getD i [], ∃ q ∈ M1.getD i [], q.1 = p.1 := by
  intro i p hp
  rw [matElemMul, zipWith_getD_nil] at hp
  split at hp
  · exact mulRow_sub _ _ p hp
  · exact absurd hp (List.not_mem_nil p)

theorem bool_row_getD (D V : List Word) (i : Nat) :
    (boolean_tf D V).getD i []
      = if i < D.length then boolRow V (D.getD i []) else [] :=
  map_getD_nil _ _ _

theorem okPositions_tf (D V : List Word) : okPositions D V (tf D V) := by
  intro i p hp
  rw [tf_row_getD] at hp
  split at hp
  · exact ⟨(tfRow_mem_facts hp).1, (tfRow_mem_facts hp).2.1⟩
  · exact absurd hp (List.not_mem_nil p)

theorem okPositions_bool (D V : List Word) : okPositions D V (boolean_tf D V) := by
  intro i p hp
  rw [bool_row_getD] at hp
  split at hp
  · exact ⟨(boolRow_mem_facts hp).1, (boolRow_mem_facts hp).2.1⟩
  · exact absurd hp (List.not_mem_nil p)

theorem emptyRow_tf (D V : List Word) : emptyRowOnNoVocab D V (tf D V) := by
  intro i hno
  rw [tf_row_getD]
  split
  · rw [tfRow]
    exact buildRowAux_eq_nil hno
  · rfl

theorem emptyRow_bool (D V : List Word) : emptyRowOnNoVocab D V (boolean_tf D V) := by
  intro i hno
  rw [bool_row_getD]
  split
  · rw [boolRow]
    exact buildRowAux_eq_nil hno
  · rfl

theorem natMat_sub {α : Type} [LinearOrderedField α] (M : SparseMat Nat) :
    ∀ i : Nat, ∀ p ∈ (natMat M : SparseMat α).getD i [], ∃ q ∈ M.getD i [], q.1 = p.1 :=
  mapRows_sub _ M

theorem schemeMat_sub_tf {α : Type} [LinearOrderedField α] (ln : α → α)
    (k : TfKind) (D V : List Word) (a : α) :
    (∀ i : Nat, ∀ p ∈ (schemeMat ln k D V a).getD i [],
        ∃ q ∈ (tf D V).getD i [], q.1 = p.1)
    ∨ (∀ i : Nat, ∀ p ∈ (schemeMat ln k D V a).getD i [],
        ∃ q ∈ (boolean_tf D V).getD i [], q.1 = p.1) := by
  cases k with
  | rawK => exact Or.inl (natMat_sub _)
  | logK =>
    refine Or.inl (sub_trans ?_ (@natMat_sub α _ (tf D V)))
    exact mapRows_sub _ _
  | augK =>
    have h1 : ∀ i : Nat, ∀ p ∈ ((natMat (tf D V) : SparseMat α).map
        (fun r => r.map (fun p => (p.1, p.2 * (1 - a))))).getD i [],
        ∃ q ∈ (natMat (tf D V) : SparseMat α).getD i [], q.1 = p.1 :=
      mapRows_sub _ _
    have h2 : ∀ i : Nat, ∀ p ∈ (((natMat (tf D V) : SparseMat α).map
        (fun r => r.map (fun p => (p.1, p.2 * (1 - a))))).map augRowDiv).getD i [],
        ∃ q ∈ ((natMat (tf D V) : SparseMat α).map
          (fun r => r.map (fun p => (p.1, p.2 * (1 - a))))).getD i [], q.1 = p.1 :=
      sub_of_map _ (fun r => augRowDiv_sub r) _
    have h3 : ∀ i : Nat, ∀ p ∈ (schemeMat ln TfKind.augK D V a).getD i [],
        ∃ q ∈ (((natMat (tf D V) : SparseMat α).map
          (fun r => r.map (fun p => (p.1, p.2 * (1 - a))))).map augRowDiv).getD i [],
          q.1 = p.1 :=
      mapRows_sub _ _
    exact Or.inl (sub_trans h3 (sub_trans h2 (sub_trans h1 (@natMat_sub α _ (tf D V)))))
  | boolK => exact Or.inr (natMat_sub _)

/-- C8: every matrix-building operation — the four term-frequency
builders, `idf` and `tf_idf` (any scheme, any `alpha`) — stores entries
only at positions whose vocabulary word occurs as a token of the
corresponding document, so a word absent from the vocabulary contributes
no matrix entry (the `dictionary.index` `ValueError` is caught, never
propagated: every operation is total here), and a document containing
zero vocabulary words yields an entirely empty row. -/
theorem builders_skip_oov_and_empty_rows (D V : List Word) (k : TfKind)
    (alpha : ℝ) :
    (okPositions D V (tf D V) ∧ emptyRowOnNoVocab D V (tf D V))
    ∧ (okPositions D V (boolean_tf D V) ∧ emptyRowOnNoVocab D V (boolean_tf D V))
    ∧ (okPositions D V (log_tf Real.log D V)
        ∧ emptyRowOnNoVocab D V (log_tf Real.log D V))
    ∧ (okPositions D V (augmented_tf D V alpha)
        ∧ emptyRowOnNoVocab D V (augmented_tf D V alpha))
    ∧ (okPositions D V (idf Real.log D V)
        ∧ emptyRowOnNoVocab D V (idf Real.log D V))
    ∧ (okPositions D V (tf_idf Real.log D V k alpha)
        ∧ emptyRowOnNoVocab D V (tf_idf Real.log D V k alpha)) := by
  have hlog : ∀ i : Nat, ∀ p ∈ (log_tf Real.log D V).getD i [],
      ∃ q ∈ (tf D V).getD i [], q.1 = p.1 := by
    rw [log_tf]
    exact sub_trans (mapRows_sub _ _) (@natMat_sub ℝ _ (tf D V))
  have haug : ∀ i : Nat, ∀ p ∈ (augmented_tf D V alpha).getD i [],
      ∃ q ∈ (tf D V).getD i [], q.1 = p.1 := by
    rw [augmented_tf]
    exact sub_trans (mapRows_sub _ _)
      (sub_trans (sub_of_map _ (fun r => augRowDiv_sub r) _)
        (sub_trans (mapRows_sub _ _) (@natMat_sub ℝ _ (tf D V))))
  have hidf : ∀ i : Nat, ∀ p ∈ (idf Real.log D V).getD i [],
      ∃ q ∈ (boolean_tf D V).getD i [], q.1 = p.1 := by
    rw [idf]
    exact sub_trans (mapRows_sub _ _) (@natMat_sub ℝ _ (boolean_tf D V))
  have htfidf : ∀ i : Nat, ∀ p ∈ (tf_idf Real.log D V k alpha).getD i [],
      ∃ q ∈ (schemeMat Real.log k D V alpha).getD i [], q.1 = p.1 := by
    rw [tf_idf]
    exact matElemMul_sub _ _
  have hscheme : okPositions D V (schemeMat Real.log k D V alpha)
      ∧ emptyRowOnNoVocab D V (schemeMat Real.log k D V alpha) := by
    rcases schemeMat_sub_tf Real.log k D V alpha with hs | hs
    · exact ⟨okPositions_of_sub hs (okPositions_tf D V),
        emptyRow_of_sub hs (emptyRow_tf D V)⟩
    · exact ⟨okPositions_of_sub hs (okPositions_bool D V),
        emptyRow_of_sub hs (emptyRow_bool D V)⟩
  refine ⟨⟨okPositions_tf D V, emptyRow_tf D V⟩,
    ⟨okPositions_bool D V, emptyRow_bool D V⟩,
    ⟨okPositions_of_sub hlog (okPositions_tf D V),
      emptyRow_of_sub hlog (emptyRow_tf D V)⟩,
    ⟨okPositions_of_sub haug (okPositions_tf D V),
      emptyRow_of_sub haug (emptyRow_tf D V)⟩,
    ⟨okPositions_of_sub hidf (okPositions_bool D V),
      emptyRow_of_sub hidf (emptyRow_bool D V)⟩,
    ⟨okPositions_of_sub htfidf hscheme.1,
      emptyRow_of_sub htfidf hscheme.2⟩⟩

/-- Witness for C8: documents `["xy", "cat"]` with vocabulary `["cat"]` —
the word "xy" is out of vocabulary and row 0 is empty. -/
theorem builders_skip_oov_and_empty_rows_witness :
    (∀ w ∈ tokens ((["xy".toList, "cat".toList] : List Word).getD 0 []),
      w ∉ (["cat".toList] : List Word))
    ∧ (tf ["xy".toList, "cat".toList] ["cat".toList]).getD 0 [] = [] := by
  have h := (builders_skip_oov_and_empty_rows ["xy".toList, "cat".toList]
    ["cat".toList] TfKind.rawK 0).1.2
  have hw : ∀ w ∈ tokens ((["xy".toList, "cat".toList] : List Word).getD 0 []),
      w ∉ (["cat".toList] : List Word) := by decide
  exact ⟨hw, h 0 hw⟩

/-! ### Claim C5: idf positions and values -/

theorem cols_map_val {α β : Type} (g : Nat × β → α) (r : SparseRow β) :
    (r.map (fun q => (q.1, g q))).map Prod.fst = r.map Prod.fst := by
  induction r with
  | nil => rfl
  | cons q rest ih => simp [ih]

theorem matCols_mapRows {α β : Type} (g : Nat × β → α) (M : SparseMat β) :
    (M.map (fun r => r.map (fun q => (q.1, g q)))).map (fun r => r.map Prod.fst)
      = M.map (fun r => r.map Prod.fst) := by
  induction M with
  | nil => rfl
  | cons r M ih => simp only [List.map_cons, ih, cols_map_val]

theorem countP_col_eq_lookup {α : Type} (r : SparseRow α) (j : Nat)
    (hnd : (r.map Prod.fst).Nodup) :
    r.countP (fun p => p.1 == j) = if (lookupCol r j).isSome then 1 else 0 := by
  induction r with
  | nil => simp [lookupCol]
  | cons q rest ih =>
    simp only [List.map_cons, List.nodup_cons] at hnd
    by_cases h : q.1 = j
    · have hrest : rest.countP (fun p => p.1 == j) = 0 := by
        rw [List.countP_eq_zero]
        intro p hp
        simp only [beq_iff_eq]
        intro hc
        exact hnd.1 (by rw [h, ← hc]; exact List.mem_map_of_mem Prod.fst hp)
      rw [lookupCol_cons, if_pos h]
      simp [List.countP_cons, h, hrest]
    · rw [lookupCol_cons, if_neg h]
      simp only [List.countP_cons]
      rw [ih hnd.2]
      simp [h]

theorem countP_drop_nonzero {α : Type} [LinearOrderedField α]
    (r : SparseRow α) (j : Nat) (hv : ∀ p ∈ r, p.2 ≠ 0) :
    r.countP (fun p => p.1 == j && decide (p.2 ≠ 0))
      = r.countP (fun p => p.1 == j) := by
  induction r with
  | nil => rfl
  | cons q rest ih =>
    have hq : q.2 ≠ 0 := hv q (List.mem_cons_self _ _)
    simp only [List.countP_cons, ih (fun p hp => hv p (List.mem_cons_of_mem _ hp))]
    simp [hq]

theorem boolRow_cast_cols_nodup (V : List Word) (d : Word) :
    (((boolRow V d).map (fun p => ((p.1 : Nat), ((p.2 : Nat) : ℝ)))).map Prod.fst).Nodup := by
  rw [cols_map_val (fun q => ((q.2 : Nat) : ℝ))]
  exact buildRowAux_cols_nodup

theorem lookupCol_map_val {α β : Type} (g : Nat × β → α) (r : SparseRow β) (j : Nat) :
    lookupCol (r.map (fun q => (q.1, g q))) j
      = (r.find? (fun p => p.1 == j)).map (fun q => g q) := by
  induction r with
  | nil => rfl
  | cons q rest ih =>
    by_cases h : q.1 = j <;> simp [lookupCol, List.find?_cons, h, ← ih]

theorem boolRow_cast_count {V : List Word} (d : Word) {j : Nat}
    (hV : V.Nodup) (hj : j < V.length) :
    ((boolRow V d).map (fun p => ((p.1 : Nat), ((p.2 : Nat) : ℝ)))).countP
        (fun p => p.1 == j && decide (p.2 ≠ 0))
      = if V.getD j [] ∈ tokens d then 1 else 0 := by
  set rc : SparseRow ℝ := (boolRow V d).map (fun p => ((p.1 : Nat), ((p.2 : Nat) : ℝ))) with hrc
  have hv : ∀ p ∈ rc, p.2 ≠ 0 := by
    intro p hp
    rw [hrc] at hp
    obtain ⟨q, hq, rfl⟩ := List.mem_map.mp hp
    have hval : q.2 = 1 := (boolRow_mem_facts hq).2.2
    simp [hval]
  rw [countP_drop_nonzero rc j hv, countP_col_eq_lookup rc j (boolRow_cast_cols_nodup V d),
    hrc, lookupCol_map_val (fun q => ((q.2 : Nat) : ℝ))]
  have hb := @boolRow_lookup V d j hV hj
  rw [lookupCol] at hb
  by_cases hmem : V.getD j [] ∈ tokens d
  · rw [if_pos hmem] at hb
    rcases Option.map_eq_some'.mp hb with ⟨q0, hq0, _⟩
    rw [hq0, if_pos hmem]
    rfl
  · rw [if_neg hmem] at hb
    have hnone : (boolRow V d).find? (fun p => p.1 == j) = none := by
      cases hfind : (boolRow V d).find? (fun p => p.1 == j)
      · rfl
      · rw [hfind] at hb
        simp at hb
    rw [hnone, if_neg hmem]
    rfl

theorem sum_map_ite_toCountP (P : Word → Prop) [DecidablePred P] (D : List Word)
    (f : Word → Nat) (hf : ∀ d ∈ D, f d = if P d then 1 else 0) :
    (D.map f).sum = D.countP (fun d => decide (P d)) := by
  induction D with
  | nil => rfl
  | cons d D ih =>
    simp only [List.map_cons, List.sum_cons, List.countP_cons,
      hf d (List.mem_cons_self _ _), ih (fun x hx => hf x (List.mem_cons_of_mem _ hx))]
    by_cases h : P d
    · simp [h, Nat.add_comm]
    · simp [h]

theorem colNonzeroCount_boolMat (D V : List Word) {j : Nat}
    (hV : V.Nodup) (hj : j < V.length) :
    colNonzeroCount (natMat (boolean_tf D V) : SparseMat ℝ) j = dfDocs D V j := by
  rw [colNonzeroCount, natMat, boolean_tf, dfDocs, List.map_map, List.map_map]
  exact sum_map_ite_toCountP (fun d => V.getD j [] ∈ tokens d) D _
    (fun d _ => boolRow_cast_count d hV hj)

/-- C5: `idf(D, V)` has exactly the stored ("nonzero") positions of
`boolean_tf(D, V)`, and every stored entry in column `j` holds the
identical value `ln(N / (1 + df(j)))`, where `N` is the number of
documents and `df(j)` the number of documents containing vocabulary word
`j` at least once. -/
theorem idf_positions_and_values (D V : List Word) (hV : V.Nodup) :
    ((idf Real.log D V).map (fun r => r.map Prod.fst)
      = (boolean_tf D V).map (fun r => r.map Prod.fst))
    ∧ ∀ i : Nat, ∀ p ∈ (idf Real.log D V).getD i [],
        p.2 = Real.log ((D.length : ℝ) / (1 + (dfDocs D V p.1 : ℝ))) := by
  constructor
  · rw [idf]
    rw [matCols_mapRows]
    rw [natMat, matCols_mapRows]
  · intro i p hp
    rw [idf, map_getD_nil] at hp
    split at hp
    · obtain ⟨q, hq, rfl⟩ := List.mem_map.mp hp
      have hq1 : q.1 < V.length := by
        obtain ⟨q', hq', hfst⟩ := @natMat_sub ℝ _ (boolean_tf D V) i q hq
        have := okPositions_bool D V i q' hq'
        rw [hfst] at this
        exact this.1
      simp only
      rw [colNonzeroCount_boolMat D V hV hq1]
    · exact absurd hp (List.not_mem_nil p)

/-- Witness for C5 at documents `["a", "a b"]`, vocabulary `["a", "b"]`. -/
theorem idf_positions_and_values_witness :
    (["a".toList, "b".toList] : List Word).Nodup
    ∧ (((idf Real.log ["a".toList, "a b".toList] ["a".toList, "b".toList]).map
          (fun r => r.map Prod.fst)
        = (boolean_tf ["a".toList, "a b".toList] ["a".toList, "b".toList]).map
          (fun r => r.map Prod.fst))
      ∧ ∀ i : Nat,
          ∀ p ∈ (idf Real.log ["a".toList, "a b".toList]
              ["a".toList, "b".toList]).getD i [],
          p.2 = Real.log (((["a".toList, "a b".toList] : List Word).length : ℝ)
            / (1 + (dfDocs ["a".toList, "a b".toList] ["a".toList, "b".toList] p.1 : ℝ)))) :=
  ⟨by decide,
    idf_positions_and_values ["a".toList, "a b".toList] ["a".toList, "b".toList] (by decide)⟩

/-! ### Claims C6 and C7: row normalization -/

theorem sum_map_div {α : Type} [LinearOrderedField α] (l : List α) (c : α) :
    (l.map (fun x => x / c)).sum = l.sum / c := by
  induction l with
  | nil => simp
  | cons x l ih => simp [ih, add_div]

theorem sum_sq_nonneg {α : Type} [LinearOrderedField α] (r : SparseRow α) :
    0 ≤ (r.map (fun p => p.2 ^ 2)).sum := by
  induction r with
  | nil => simp
  | cons q rest ih =>
    simp only [List.map_cons, List.sum_cons]
    have h := sq_nonneg q.2
    linarith

theorem sum_sq_pos {α : Type} [LinearOrderedField α] {r : SparseRow α}
    (h : hasNonzeroEntry r) : 0 < (r.map (fun p => p.2 ^ 2)).sum := by
  induction r with
  | nil => simp [hasNonzeroEntry] at h
  | cons q rest ih =>
    rcases h with ⟨p, hp, hpne⟩
    rcases List.mem_cons.mp hp with rfl | hmem
    · have h1 : 0 < p.2 ^ 2 :=
        lt_of_le_of_ne (sq_nonneg p.2) (Ne.symm (pow_ne_zero 2 hpne))
      have h2 := sum_sq_nonneg rest
      simp only [List.map_cons, List.sum_cons]
      linarith
    · have h1 := ih ⟨p, hmem, hpne⟩
      have h2 : (0:α) ≤ q.2 ^ 2 := sq_nonneg _
      simp only [List.map_cons, List.sum_cons]
      linarith

theorem rowNorm_unit (r : SparseRow ℝ) (h : hasNonzeroEntry r) :
    rowNorm Real.sqrt (r.map (fun p => (p.1, p.2 / rowNorm Real.sqrt r))) = 1 := by
  set S := (r.map (fun p => p.2 ^ 2)).sum with hS
  have hSpos : 0 < S := sum_sq_pos h
  have hn : rowNorm Real.sqrt r = Real.sqrt S := by rw [rowNorm, hS]
  rw [hn, rowNorm, List.map_map]
  have hfun : ((fun p : Nat × ℝ => p.2 ^ 2) ∘ (fun p : Nat × ℝ => (p.1, p.2 / Real.sqrt S)))
      = ((fun x : ℝ => x / S) ∘ (fun p : Nat × ℝ => p.2 ^ 2)) := by
    funext p
    simp only [Function.comp_apply]
    rw [div_pow, Real.sq_sqrt hSpos.le]
  rw [hfun, ← List.map_map, sum_map_div, ← hS, div_self (ne_of_gt hSpos), Real.sqrt_one]

/-- C6: for every matrix with no all-zero rows, every row of
`unit_length_scaling` has Euclidean norm exactly 1 in the real-arithmetic
model, in particular within the claimed 1e-9 tolerance. -/
theorem unit_length_scaling_row_norm_one (M : SparseMat ℝ)
    (h : ∀ r ∈ M, hasNonzeroEntry r) :
    ∀ r' ∈ unit_length_scaling Real.sqrt M,
      rowNorm Real.sqrt r' = 1 ∧ |rowNorm Real.sqrt r' - 1| ≤ 1e-9 := by
  intro r' hr'
  obtain ⟨r, hr, rfl⟩ := List.mem_map.mp hr'
  have h1 := rowNorm_unit r (h r hr)
  exact ⟨h1, by rw [h1]; norm_num⟩

/-- Witness for C6 at the single-row matrix `[[3, 4]]`. -/
theorem unit_length_scaling_row_norm_one_witness :
    (∀ r ∈ ([[(0, (3:ℝ)), (1, 4)]] : SparseMat ℝ), hasNonzeroEntry r)
    ∧ ∀ r' ∈ unit_length_scaling Real.sqrt ([[(0, (3:ℝ)), (1, 4)]] : SparseMat ℝ),
        rowNorm Real.sqrt r' = 1 ∧ |rowNorm Real.sqrt r' - 1| ≤ 1e-9 := by
  have hyp : ∀ r ∈ ([[(0, (3:ℝ)), (1, 4)]] : SparseMat ℝ), hasNonzeroEntry r := by
    intro r hr
    rw [List.mem_singleton] at hr
    subst hr
    exact ⟨(0, 3), by simp, by norm_num⟩
  exact ⟨hyp, unit_length_scaling_row_norm_one _ hyp⟩

/-- C7: on matrices with no all-zero rows, row normalization is idempotent
(exactly, in the real-arithmetic model, hence within any floating
tolerance). -/
theorem unit_length_scaling_idempotent (M : SparseMat ℝ)
    (h : ∀ r ∈ M, hasNonzeroEntry r) :
    unit_length_scaling Real.sqrt (unit_length_scaling Real.sqrt M)
      = unit_length_scaling Real.sqrt M := by
  conv_lhs => rw [unit_length_scaling, unit_length_scaling]
  rw [List.map_map]
  conv_rhs => rw [unit_length_scaling]
  refine List.map_congr_left ?_
  intro r hr
  simp only [Function.comp_apply]
  have h1 := rowNorm_unit r (h r hr)
  rw [h1]
  simp

/-- Witness for C7 at the single-row matrix `[[3, 4]]`. -/
theorem unit_length_scaling_idempotent_witness :
    (∀ r ∈ ([[(0, (3:ℝ)), (1, 4)]] : SparseMat ℝ), hasNonzeroEntry r)
    ∧ unit_length_scaling Real.sqrt
        (unit_length_scaling Real.sqrt ([[(0, (3:ℝ)), (1, 4)]] : SparseMat ℝ))
      = unit_length_scaling Real.sqrt ([[(0, (3:ℝ)), (1, 4)]] : SparseMat ℝ) := by
  have hyp : ∀ r ∈ ([[(0, (3:ℝ)), (1, 4)]] : SparseMat ℝ), hasNonzeroEntry r := by
    intro r hr
    rw [List.mem_singleton] at hr
    subst hr
    exact ⟨(0, 3), by simp, by norm_num⟩
  exact ⟨hyp, unit_length_scaling_idempotent _ hyp⟩

/-! ### Claim C4: the augmented-tf formula -/

/-- C4 (code bug): at documents `["a a b"]`, vocabulary `["a", "b"]` and
`alpha = 1/2`, `augmented_tf` stores `3/2` at the maximal entry and `1` at
the other.  The pre-scaling of the stored data by `(1 - alpha)` cancels
inside the subsequent row-max division, so the code computes
`alpha + v / max(v)` and not the formula of its own docstring (and of the
claim), `alpha + (1 - alpha) * v / max(v)`, which here gives `1` and
`3/4`. -/
theorem augmented_tf_formula_bug :
    augmented_tf ["a a b".toList] ["a".toList, "b".toList] ((1:ℚ)/2)
      = [[(0, 3/2), (1, 1)]]
    ∧ ((1:ℚ)/2 + (1 - 1/2) * (2/2) = 1) ∧ ((3:ℚ)/2 ≠ 1)
    ∧ ((1:ℚ)/2 + (1 - 1/2) * (1/2) = 3/4) ∧ ((1:ℚ) ≠ 3/4) := by
  refine ⟨?_, by norm_num, by norm_num, by norm_num, by norm_num⟩
  have h : tf ["a a b".toList] ["a".toList, "b".toList] = [[(0, 2), (1, 1)]] := by
    decide
  simp only [augmented_tf, natMat, h, augRowDiv, rowMax?, List.map_cons,
    List.map_nil, List.max?]
  norm_num [max_def]

/-! ### Claim C2: similarity on disjoint supports -/

/-- C2 (code bug): for `matrix1 = [[1, 0]]` and `matrix2 = [[0, 1]]`
(disjoint supports, stored as the sparse rows `[(0, 1)]` and `[(1, 1)]`),
the sparse product `matrix2 @ matrix1.T` stores no entry at all, so the
`result.data = result.data + 1.0` shift never reaches the 1-by-1 result:
`sim` densifies it to the bare scalar `0.0`, while the claim (and the
docstring formula `sim(u, v) = cos(u, v) + 1`) give `0 + 1 = 1.0`. -/
theorem sim_disjoint_support_zero :
    sim Real.sqrt [[(0, (1:ℝ))]] [[(1, (1:ℝ))]] = [[0]] ∧ (0:ℝ) ≠ 0 + 1 := by
  constructor
  · simp [sim, unit_length_scaling, rowNorm, sharedCols, lookupCol]
  · norm_num

/-! ### Claim C1: the fused tf-idf against the naive computation -/

theorem filterMap_eq_map_of_some {A B : Type} (f : A → Option B) (g : A → B)
    (l : List A) (h : ∀ a ∈ l, f a = some (g a)) :
    l.filterMap f = l.map g := by
  induction l with
  | nil => rfl
  | cons a l ih =>
    rw [List.filterMap_cons_some (h a (List.mem_cons_self _ _)),
      List.map_cons, ih (fun x hx => h x (List.mem_cons_of_mem _ hx))]

theorem find?_col_mem {α : Type} (r : SparseRow α) (j : Nat)
    (h : j ∈ r.map Prod.fst) :
    ∃ q, r.find? (fun p => p.1 == j) = some q ∧ q.1 = j := by
  induction r with
  | nil => simp at h
  | cons q0 rest ih =>
    by_cases hq : q0.1 = j
    · exact ⟨q0, by simp [List.find?_cons, hq], hq⟩
    · have h' : j ∈ rest.map Prod.fst := by
        rw [List.map_cons] at h
        rcases List.mem_cons.mp h with hc | hc
        · exact absurd hc.symm hq
        · exact hc
      obtain ⟨q, hq1, hq2⟩ := ih h'
      exact ⟨q, by simp [List.find?_cons, hq, hq1], hq2⟩

theorem mulRow_mapped (r1 r2 : SparseRow ℝ) (G : Nat → ℝ)
    (hcols : r1.map Prod.fst = r2.map Prod.fst) :
    mulRow r1 (r2.map (fun q => (q.1, G q.1)))
      = r1.map (fun p => (p.1, p.2 * G p.1)) := by
  rw [mulRow]
  refine filterMap_eq_map_of_some _ _ _ ?_
  intro p hp
  have hmem : p.1 ∈ r2.map Prod.fst := by
    rw [← hcols]
    exact List.mem_map_of_mem Prod.fst hp
  obtain ⟨q, hfind, hq1⟩ := find?_col_mem r2 p.1 hmem
  rw [lookupCol_map_val, hfind]
  simp [hq1]

theorem mapRows_getD_cols {α β : Type} (f : SparseRow β → SparseRow α)
    (hf : ∀ r, (f r).map Prod.fst = r.map Prod.fst) (M : SparseMat β) (i : Nat) :
    ((M.map f).getD i []).map Prod.fst = (M.getD i []).map Prod.fst := by
  rw [map_getD_nil]
  split
  · exact hf _
  · next h =>
    rw [List.getD_eq_default _ _ (by simpa using Nat.le_of_not_lt h)]
    rfl

theorem augRowDiv_cols {α : Type} [LinearOrderedField α] (r : SparseRow α) :
    (augRowDiv r).map Prod.fst = r.map Prod.fst := by
  rw [augRowDiv]
  split
  · rfl
  · exact cols_map_val _ _

theorem tf_cols_eq_bool_cols (D V : List Word) (i : Nat) :
    ((tf D V).getD i []).map Prod.fst
      = ((boolean_tf D V).getD i []).map Prod.fst := by
  rw [tf_row_getD, bool_row_getD]
  by_cases h : i < D.length
  · rw [if_pos h, if_pos h]
    exact tfRow_cols_eq_boolRow_cols V _
  · rw [if_neg h, if_neg h]

theorem natMat_getD_cols (M : SparseMat Nat) (i : Nat) :
    ((natMat M : SparseMat ℝ).getD i []).map Prod.fst
      = (M.getD i []).map Prod.fst :=
  mapRows_getD_cols _ (fun r => cols_map_val _ r) M i

theorem schemeMat_getD_cols (ln : ℝ → ℝ) (k : TfKind) (D V : List Word)
    (a : ℝ) (i : Nat) :
    ((schemeMat ln k D V a).getD i []).map Prod.fst
      = ((natMat (boolean_tf D V) : SparseMat ℝ).getD i []).map Prod.fst := by
  rw [natMat_getD_cols, ← tf_cols_eq_bool_cols D V i]
  cases k with
  | rawK => exact natMat_getD_cols (tf D V) i
  | logK =>
    show (((natMat (tf D V) : SparseMat ℝ).map _).getD i []).map Prod.fst = _
    rw [mapRows_getD_cols _ (fun r => cols_map_val _ r), natMat_getD_cols]
  | augK =>
    show (((((natMat (tf D V) : SparseMat ℝ).map _).map augRowDiv).map _).getD i []).map
        Prod.fst = _
    rw [mapRows_getD_cols _ (fun r => cols_map_val _ r),
      mapRows_getD_cols _ (fun r => augRowDiv_cols r),
      mapRows_getD_cols _ (fun r => cols_map_val _ r), natMat_getD_cols]
  | boolK =>
    show (((natMat (boolean_tf D V)) : SparseMat ℝ).getD i []).map Prod.fst = _
    rw [natMat_getD_cols, tf_cols_eq_bool_cols D V i]

theorem schemeMat_length (ln : ℝ → ℝ) (k : TfKind) (D V : List Word) (a : ℝ) :
    (schemeMat ln k D V a).length = D.length := by
  cases k <;>
    simp [schemeMat, natMat, log_tf, augmented_tf, tf, boolean_tf]

theorem boolMat_vals_ne_zero (D V : List Word) :
    ∀ i : Nat, ∀ p ∈ (natMat (boolean_tf D V) : SparseMat ℝ).getD i [],
      p.2 ≠ 0 := by
  intro i p hp
  rw [natMat, map_getD_nil] at hp
  split at hp
  · obtain ⟨q, hq, rfl⟩ := List.mem_map.mp hp
    rw [bool_row_getD] at hq
    split at hq
    · have hval : q.2 = 1 := (boolRow_mem_facts hq).2.2
      simp [hval]
    · exact absurd hq (List.not_mem_nil q)
  · exact absurd hp (List.not_mem_nil p)

theorem colNonzeroCount_eq_of_cols (M1 M2 : SparseMat ℝ)
    (hlen : M1.length = M2.length)
    (hcols : ∀ i : Nat, (M1.getD i []).map Prod.fst = (M2.getD i []).map Prod.fst)
    (h1 : ∀ i : Nat, ∀ p ∈ M1.getD i [], p.2 ≠ 0)
    (h2 : ∀ i : Nat, ∀ p ∈ M2.getD i [], p.2 ≠ 0) (j : Nat) :
    colNonzeroCount M1 j = colNonzeroCount M2 j := by
  rw [colNonzeroCount, colNonzeroCount]
  induction M1 generalizing M2 with
  | nil =>
    cases M2 with
    | nil => rfl
    | cons r2 M2' => simp at hlen
  | cons r1 M1' ih =>
    cases M2 with
    | nil => simp at hlen
    | cons r2 M2' =>
      simp only [List.map_cons, List.sum_cons]
      have hc0 : r1.map Prod.fst = r2.map Prod.fst := hcols 0
      have hrow : r1.countP (fun p => p.1 == j && decide (p.2 ≠ 0))
          = r2.countP (fun p => p.1 == j && decide (p.2 ≠ 0)) := by
        rw [countP_drop_nonzero r1 j (h1 0), countP_drop_nonzero r2 j (h2 0)]
        have e1 : (r1.map Prod.fst).countP (fun c => c == j)
            = r1.countP (fun p => p.1 == j) := by
          rw [List.countP_map]
          rfl
        have e2 : (r2.map Prod.fst).countP (fun c => c == j)
            = r2.countP (fun p => p.1 == j) := by
          rw [List.countP_map]
          rfl
        rw [← e1, ← e2, hc0]
      rw [hrow, ih M2' (by simpa using hlen) (fun i => hcols (i + 1))
        (fun i => h1 (i + 1)) (fun i => h2 (i + 1))]

theorem ext_rows {A : Type} : ∀ (l1 l2 : List (List A)),
    l1.length = l2.length → (∀ i : Nat, l1.getD i [] = l2.getD i []) → l1 = l2
  | [], [], _, _ => rfl
  | [], _ :: _, h, _ => by simp at h
  | _ :: _, [], h, _ => by simp at h
  | r1 :: t1, r2 :: t2, hlen, h => by
    have h0 := h 0
    simp only [List.getD_cons_zero] at h0
    rw [h0, ext_rows t1 t2 (by simpa using hlen) (fun i => h (i + 1))]

/-- C1 (amended): the fused `tf_idf` equals the naive computation — the
chosen term-frequency matrix multiplied elementwise (on the intersection
of stored positions) with the independently computed `idf` matrix —
provided every stored entry of the chosen term-frequency matrix is
nonzero.  (That proviso holds automatically for the raw, logarithmic and
boolean schemes, and for the augmented scheme with `alpha ∈ [0, 1)`; the
counterexample shows it is needed for the augmented scheme with a
negative `alpha`.) -/
theorem tf_idf_fused_eq_naive_of_nonzero (D V : List Word) (k : TfKind)
    (alpha : ℝ)
    (hnz : ∀ i : Nat, ∀ p ∈ (schemeMat Real.log k D V alpha).getD i [],
      p.2 ≠ 0) :
    tf_idf Real.log D V k alpha = naive_tf_idf Real.log D V k alpha := by
  rw [tf_idf, naive_tf_idf, idf]
  set tfv : SparseMat ℝ := schemeMat Real.log k D V alpha with htfv
  set B : SparseMat ℝ := natMat (boolean_tf D V) with hB
  set N : ℝ := (D.length : ℝ) with hN
  have hlen : tfv.length = B.length := by
    rw [htfv, hB, schemeMat_length, natMat, List.length_map, boolean_tf,
      List.length_map]
  have hcols : ∀ i : Nat, (tfv.getD i []).map Prod.fst = (B.getD i []).map Prod.fst := by
    intro i
    rw [htfv, hB]
    exact schemeMat_getD_cols Real.log k D V alpha i
  have hBnz : ∀ i : Nat, ∀ p ∈ B.getD i [], p.2 ≠ 0 := by
    rw [hB]
    exact boolMat_vals_ne_zero D V
  have hcnt : ∀ j : Nat, colNonzeroCount tfv j = colNonzeroCount B j :=
    colNonzeroCount_eq_of_cols tfv B hlen hcols hnz hBnz
  rw [matElemMul, matElemMul]
  refine ext_rows _ _ ?_ ?_
  · rw [List.length_zipWith, List.length_zipWith, List.length_map, List.length_map]
    omega
  · intro i
    rw [zipWith_getD_nil, zipWith_getD_nil]
    by_cases hi : i < tfv.length
    · rw [if_pos ⟨hi, by rw [List.length_map]; exact hi⟩,
        if_pos ⟨hi, by rw [List.length_map]; omega⟩]
      rw [map_getD_nil, if_pos hi, map_getD_nil, if_pos (by omega)]
      rw [mulRow_mapped _ _ (fun j => Real.log (N / (1 + (colNonzeroCount tfv j : ℝ)))) rfl,
        mulRow_mapped _ _ (fun j => Real.log (N / (1 + (colNonzeroCount B j : ℝ)))) (hcols i)]
      refine List.map_congr_left ?_
      intro p _
      rw [hcnt p.1]
    · rw [if_neg (by intro hc; exact hi hc.1), if_neg (by intro hc; exact hi hc.1)]

/-- Witness for C1 (amended) at documents `["a"]`, vocabulary `["a"]`,
raw scheme. -/
theorem tf_idf_fused_eq_naive_of_nonzero_witness :
    (∀ i : Nat, ∀ p ∈ (schemeMat Real.log TfKind.rawK ["a".toList]
        ["a".toList] 0).getD i [], p.2 ≠ 0)
    ∧ tf_idf Real.log ["a".toList] ["a".toList] TfKind.rawK 0
      = naive_tf_idf Real.log ["a".toList] ["a".toList] TfKind.rawK 0 := by
  have htf : tf ["a".toList] ["a".toList] = [[(0, 1)]] := by decide
  have hnz : ∀ i : Nat, ∀ p ∈ (schemeMat Real.log TfKind.rawK ["a".toList]
      ["a".toList] 0).getD i [], p.2 ≠ 0 := by
    intro i p hp
    simp only [schemeMat, natMat, htf] at hp
    cases i with
    | zero =>
      simp only [List.map_cons, List.map_nil, List.getD_cons_zero] at hp
      rcases List.mem_singleton.mp hp with rfl
      norm_num
    | succ n =>
      simp only [List.map_cons, List.map_nil, List.getD_cons_succ] at hp
      exact absurd hp (by simp)
  exact ⟨hnz, tf_idf_fused_eq_naive_of_nonzero _ _ _ _ hnz⟩

/-- C1 counterexample: with the augmented scheme and `alpha = -1/2`, on
documents `["a b b", "a"]` with vocabulary `["a", "b"]`, the augmented tf
matrix stores the exact value 0 for word "a" in document 0, so the fused
`tf_idf` counts a document frequency of 1 for that column while the naive
computation's `idf` counts 2: at entry `(1, 0)` the fused result is
`(1/2)·ln(2/2) = 0` while the naive result is `(1/2)·ln(2/3) ≠ 0`. -/
theorem tf_idf_fused_ne_naive_cex :
    entryV (tf_idf Real.log ["a b b".toList, "a".toList]
        ["a".toList, "b".toList] TfKind.augK (-(1/2))) 1 0
    ≠ entryV (naive_tf_idf Real.log ["a b b".toList, "a".toList]
        ["a".toList, "b".toList] TfKind.augK (-(1/2))) 1 0 := by
  have htf : tf ["a b b".toList, "a".toList] ["a".toList, "b".toList]
      = [[(0, 1), (1, 2)], [(0, 1)]] := by decide
  have hbool : boolean_tf ["a b b".toList, "a".toList] ["a".toList, "b".toList]
      = [[(0, 1), (1, 1)], [(0, 1)]] := by decide
  have haug : augmented_tf ["a b b".toList, "a".toList] ["a".toList, "b".toList]
      (-(1/2) : ℝ) = [[(0, 0), (1, 1/2)], [(0, 1/2)]] := by
    simp only [augmented_tf, natMat, htf, augRowDiv, rowMax?, List.map_cons,
      List.map_nil, List.max?]
    norm_num [max_def]
  simp only [tf_idf, naive_tf_idf, schemeMat, haug, idf, natMat, hbool]
  simp only [colNonzeroCount, List.map_cons, List.map_nil, List.countP_cons,
    List.countP_nil, List.sum_cons, List.sum_nil]
  norm_num
  simp only [matElemMul, List.zipWith_cons_cons, List.zipWith_nil_right, mulRow,
    List.filterMap_cons, lookupCol, List.find?_cons]
  norm_num [entryV, lookupCol, List.getD, List.find?]

end InfoRetrieval
